import Mathlib

/- Verification development for the Linear release plugin core.

The embedding covers, faithfully to the source:
  * the issue-identifier extractor over commit texts, i.e. the scan of the
    regular expression pattern of issuePattern, namely
    word-boundary, ([A-Z] times 2..10), hyphen, (digit+), word-boundary,
    with leftmost, non-overlapping matching as performed by
    FindAllStringSubmatch, followed by the filter/dedup loop of
    extractIssues;
  * the post-publish reconciliation (processLinkedIssues, createReleaseIssue,
    handlePostPublish), with the GraphQL gateway and the template renderer
    as oracle functions and with an explicit trace of the calls performed;
  * configuration parsing with defaults (parseConfig), the SDK config
    parser being modelled from the spec.

Texts are lists of characters; character classes use the ASCII code points
exactly as the Go regexp engine defines them for this pattern. -/

namespace Linear

/-- ASCII uppercase letter, the character class of the letter part of
issuePattern. -/
def isUpperAZ (c : Char) : Bool := 65 ≤ c.toNat && c.toNat ≤ 90

/-- ASCII decimal digit, the regex class of the number part (ASCII in RE2). -/
def isDigit09 (c : Char) : Bool := 48 ≤ c.toNat && c.toNat ≤ 57

/-- Word character for regex word boundaries: [0-9A-Za-z_]. -/
def wordChar (c : Char) : Bool :=
  isUpperAZ c || (97 ≤ c.toNat && c.toNat ≤ 122) || isDigit09 c || c.toNat == 95

/-- Right-context condition of a word boundary after a digit: end of input
or a non-word character. -/
def headOk : List Char → Bool
  | [] => true
  | c :: _ => !wordChar c

/-- Left-context condition of a word boundary before a letter, given the
text to the left of the match. `prevWord` tells whether the character
immediately before that text (if any) is a word character. -/
def lastOkB (prevWord : Bool) (pre : List Char) : Bool :=
  match pre.getLast? with
  | none => !prevWord
  | some c => !wordChar c

/-- Attempt of issuePattern at the start of `cs`: a greedy run of 2 to 10
uppercase letters, a hyphen, a greedy nonempty digit run, then a word
boundary. Returns the full match, the letter group and the rest of the
input. For this pattern, greedy matching succeeds exactly on the maximal
letter and digit runs, as the RE2 engine computes. -/
def tryMatchAt (cs : List Char) : Option (List Char × List Char × List Char) :=
  let ls := cs.takeWhile isUpperAZ
  let r1 := cs.dropWhile isUpperAZ
  if 2 ≤ ls.length ∧ ls.length ≤ 10 then
    match r1 with
    | [] => none
    | c :: r2 =>
      if c = '-' then
        let ds := r2.takeWhile isDigit09
        let r3 := r2.dropWhile isDigit09
        if ds ≠ [] ∧ headOk r3 = true then some (ls ++ '-' :: ds, ls, r3)
        else none
      else none
  else none

/-- Shape of a full match of issuePattern: 2 to 10 uppercase ASCII
letters, a hyphen, and one or more decimal digits. -/
def IsShape (m : List Char) : Prop :=
  ∃ ls ds, m = ls ++ '-' :: ds ∧ 2 ≤ ls.length ∧ ls.length ≤ 10 ∧
    (∀ c ∈ ls, isUpperAZ c = true) ∧ ds ≠ [] ∧ ∀ c ∈ ds, isDigit09 c = true

/-- Occurrence of `m` in `cs` with word-boundary context on both sides,
where `prevWord` tells whether the character just before `cs` (if any) is
a word character. -/
def OccursAt (prevWord : Bool) (cs m : List Char) : Prop :=
  ∃ pre post, cs = pre ++ m ++ post ∧ lastOkB prevWord pre = true ∧
    headOk post = true

theorem wordChar_of_upper {c : Char} (h : isUpperAZ c = true) :
    wordChar c = true := by
  simp [wordChar, h]

theorem wordChar_of_digit {c : Char} (h : isDigit09 c = true) :
    wordChar c = true := by
  simp [wordChar, h]

theorem hyphen_not_upper : isUpperAZ '-' = false := by decide

theorem not_digit_of_upper {c : Char} (h : isUpperAZ c = true) :
    isDigit09 c = false := by
  cases hd : isDigit09 c
  · rfl
  · exfalso
    simp only [isUpperAZ, Bool.and_eq_true, decide_eq_true_eq] at h
    simp only [isDigit09, Bool.and_eq_true, decide_eq_true_eq] at hd
    omega

theorem takeWhile_append_all {p : Char → Bool} :
    ∀ {l : List Char}, (∀ c ∈ l, p c = true) → ∀ t : List Char,
      (l ++ t).takeWhile p = l ++ t.takeWhile p := by
  intro l
  induction l with
  | nil => intro _ t; simp
  | cons c s ih =>
    intro h t
    have hc : p c = true := h c (by simp)
    rw [List.cons_append, List.takeWhile_cons, if_pos hc,
      ih (fun d hd => h d (by simp [hd])) t]
    rfl

theorem dropWhile_append_all {p : Char → Bool} :
    ∀ {l : List Char}, (∀ c ∈ l, p c = true) → ∀ t : List Char,
      (l ++ t).dropWhile p = t.dropWhile p := by
  intro l
  induction l with
  | nil => intro _ t; simp
  | cons c s ih =>
    intro h t
    have hc : p c = true := h c (by simp)
    rw [List.cons_append, List.dropWhile_cons, if_pos hc,
      ih (fun d hd => h d (by simp [hd])) t]

theorem digit_run_of_headOk {t : List Char} (h : headOk t = true) :
    t.takeWhile isDigit09 = [] ∧ t.dropWhile isDigit09 = t := by
  cases t with
  | nil => simp
  | cons c s =>
    have hw : wordChar c = false := by
      simpa [headOk] using h
    have hd : isDigit09 c = false := by
      cases hdc : isDigit09 c
      · rfl
      · exact absurd (wordChar_of_digit hdc) (by simp [hw])
    simp [List.takeWhile_cons, List.dropWhile_cons, hd]

theorem tryMatchAt_sound {cs m p r : List Char}
    (h : tryMatchAt cs = some (m, p, r)) :
    cs = m ++ r ∧ IsShape m ∧ headOk r = true ∧ p = m.takeWhile isUpperAZ := by
  simp only [tryMatchAt] at h
  split at h
  case isFalse => exact absurd h (by simp)
  rename_i hlen
  split at h
  case h_1 => exact absurd h (by simp)
  rename_i c r2 hdrop
  split at h
  case isFalse => exact absurd h (by simp)
  rename_i hc
  subst hc
  split at h
  case isFalse => exact absurd h (by simp)
  rename_i hds
  obtain ⟨hne, hok⟩ := hds
  simp only [Option.some.injEq, Prod.mk.injEq] at h
  obtain ⟨hm, hp, hr⟩ := h
  have hup : ∀ d ∈ cs.takeWhile isUpperAZ, isUpperAZ d = true :=
    fun d hd => List.mem_takeWhile_imp hd
  have hdig : ∀ d ∈ r2.takeWhile isDigit09, isDigit09 d = true :=
    fun d hd => List.mem_takeWhile_imp hd
  have h1 : cs.takeWhile isUpperAZ ++ cs.dropWhile isUpperAZ = cs :=
    List.takeWhile_append_dropWhile isUpperAZ cs
  have h2 : r2.takeWhile isDigit09 ++ r2.dropWhile isDigit09 = r2 :=
    List.takeWhile_append_dropWhile isDigit09 r2
  refine ⟨?_, ?_, ?_, ?_⟩
  · rw [← hm, ← hr]
    conv_lhs => rw [← h1, hdrop]
    simp [List.append_assoc, h2]
  · exact ⟨cs.takeWhile isUpperAZ, r2.takeWhile isDigit09, hm.symm,
      hlen.1, hlen.2, hup, hne, hdig⟩
  · rw [← hr]; exact hok
  · rw [← hp, ← hm, takeWhile_append_all hup]
    simp [List.takeWhile_cons, hyphen_not_upper]

theorem shape_length {m : List Char} (hm : IsShape m) : 4 ≤ m.length := by
  obtain ⟨ls, ds, rfl, h2, -, -, hne, -⟩ := hm
  have := List.length_pos.mpr hne
  simp only [List.length_append, List.length_cons]
  omega

theorem tryMatchAt_complete {m r : List Char} (hm : IsShape m)
    (hr : headOk r = true) :
    tryMatchAt (m ++ r) = some (m, m.takeWhile isUpperAZ, r) := by
  obtain ⟨ls, ds, rfl, h2, h10, hup, hne, hdig⟩ := hm
  have harr : (ls ++ '-' :: ds) ++ r = ls ++ '-' :: (ds ++ r) := by simp
  have htk : (ls ++ '-' :: ds).takeWhile isUpperAZ = ls := by
    rw [takeWhile_append_all hup]
    simp [List.takeWhile_cons, hyphen_not_upper]
  have htk2 : ((ls ++ '-' :: ds) ++ r).takeWhile isUpperAZ = ls := by
    rw [harr, takeWhile_append_all hup]
    simp [List.takeWhile_cons, hyphen_not_upper]
  have hdw : ((ls ++ '-' :: ds) ++ r).dropWhile isUpperAZ = '-' :: (ds ++ r) := by
    rw [harr, dropWhile_append_all hup]
    simp [List.dropWhile_cons, hyphen_not_upper]
  have hdr := digit_run_of_headOk hr
  have htd : (ds ++ r).takeWhile isDigit09 = ds := by
    rw [takeWhile_append_all hdig, hdr.1]
    simp
  have hdd : (ds ++ r).dropWhile isDigit09 = r := by
    rw [dropWhile_append_all hdig, hdr.2]
  simp only [tryMatchAt, htk2, hdw, htd, hdd, htk]
  rw [if_pos ⟨h2, h10⟩]
  simp [hne, hr]

/-- The regex scan: walk the text left to right; at each position that is
preceded by a non-word character (or the start), attempt the pattern; on a
match, record it and resume after the match, as FindAllStringSubmatch does
with non-overlapping matches. `prevWord` records whether the previous
character was a word character. The fuel argument only serves structural
recursion: every step consumes at least one character, so fuel equal to
the length of the text never runs out. -/
def scanFuel : Nat → Bool → List Char → List (List Char × List Char)
  | 0, _, _ => []
  | _ + 1, _, [] => []
  | n + 1, prevWord, c :: rest =>
    if prevWord then scanFuel n (wordChar c) rest
    else
      match tryMatchAt (c :: rest) with
      | some (m, p, r) => (m, p) :: scanFuel n true r
      | none => scanFuel n (wordChar c) rest

/-- All matches of issuePattern in a text, each as (full match, letter
group), in left-to-right order. -/
def findMatches (text : List Char) : List (List Char × List Char) :=
  scanFuel text.length false text

/-- strings.EqualFold restricted to ASCII case folding, which is the
complete behavior on the ASCII team keys and the uppercase letter groups
involved here. -/
def eqFold (a b : List Char) : Bool := a.map Char.toLower == b.map Char.toLower

/-- The filter of the extractor loop: keep a match when no filter is set or
the letter group equals the filter case-insensitively. -/
def keepMatch (pfx : List Char) (mp : List Char × List Char) : Bool :=
  pfx.isEmpty || eqFold mp.2 pfx

/-- extractIssues: for each commit in order, for each match in order, keep
it subject to the filter, and append its full text to the output unless
already present (the seen-map of the source is the membership test on the
accumulated output). -/
def extractIssues (commits : List (List Char)) (pfx : List Char) :
    List (List Char) :=
  commits.foldl (fun acc commit =>
    (findMatches commit).foldl (fun acc2 mp =>
      if keepMatch pfx mp then
        (if mp.1 ∈ acc2 then acc2 else acc2 ++ [mp.1])
      else acc2) acc) []

/-- The stream of retained match texts, in order, across the concatenation
of the commits. -/
def matchStream (commits : List (List Char)) (pfx : List Char) :
    List (List Char) :=
  (commits.map (fun commit =>
    ((findMatches commit).filter (keepMatch pfx)).map Prod.fst)).flatten

/-- Index of the first occurrence of `a` in `l` (length of `l` when
absent). -/
def firstIdx (l : List (List Char)) (a : List Char) : Nat :=
  match l with
  | [] => 0
  | x :: t => if x = a then 0 else firstIdx t a + 1

theorem lastOkB_cons (b : Bool) (c : Char) (pre : List Char) :
    lastOkB b (c :: pre) = lastOkB (wordChar c) pre := by
  cases pre with
  | nil => simp [lastOkB]
  | cons d s =>
    cases hg : (d :: s).getLast? with
    | none => exact absurd (List.getLast?_eq_none_iff.mp hg) (by simp)
    | some w => simp [lastOkB, List.getLast?_cons_cons, hg]

theorem lastOkB_append_ne_nil (b b2 : Bool) (s : List Char)
    {t : List Char} (h : t ≠ []) : lastOkB b (s ++ t) = lastOkB b2 t := by
  cases hg : t.getLast? with
  | none => exact absurd (List.getLast?_eq_none_iff.mp hg) h
  | some c =>
    simp [lastOkB, List.getLast?_append, hg]

theorem getLast?_some_of_ne_nil {l : List Char} (h : l ≠ []) :
    ∃ c, l.getLast? = some c := by
  cases hg : l.getLast? with
  | none => exact absurd (List.getLast?_eq_none_iff.mp hg) h
  | some c => exact ⟨c, rfl⟩

theorem mem_of_getLast?_eq {l : List Char} {c : Char}
    (h : l.getLast? = some c) : c ∈ l :=
  List.mem_of_mem_getLast? (by simp [h, Option.mem_def])

theorem occursAt_nil_false {m : List Char} (hm : IsShape m) (b : Bool) :
    ¬ OccursAt b [] m := by
  rintro ⟨pre, post, heq, -, -⟩
  have h1 : pre ++ m ++ post = [] := heq.symm
  rw [List.append_assoc, List.append_eq_nil] at h1
  rw [List.append_eq_nil] at h1
  have := shape_length hm
  rw [h1.2.1] at this
  simp at this

theorem occursAt_cons (b : Bool) (c : Char) (cs m : List Char) :
    OccursAt b (c :: cs) m ↔
      (b = false ∧ ∃ post, c :: cs = m ++ post ∧ headOk post = true) ∨
        OccursAt (wordChar c) cs m := by
  constructor
  · rintro ⟨pre, post, heq, hlast, hhead⟩
    cases pre with
    | nil =>
      left
      refine ⟨?_, post, by simpa using heq, hhead⟩
      cases b
      · rfl
      · exact absurd hlast (by simp [lastOkB])
    | cons c' pre' =>
      right
      rw [List.cons_append, List.cons_append] at heq
      obtain ⟨hcc, hcs⟩ := List.cons.inj heq
      refine ⟨pre', post, hcs, ?_, hhead⟩
      rw [lastOkB_cons] at hlast
      rw [hcc]
      exact hlast
  · rintro (⟨hb, post, heq, hhead⟩ | ⟨pre, post, heq, hlast, hhead⟩)
    · exact ⟨[], post, by simpa using heq, by simp [lastOkB, hb], hhead⟩
    · refine ⟨c :: pre, post, by simp [heq], ?_, hhead⟩
      rw [lastOkB_cons]
      exact hlast

theorem occursAt_lift {r m : List Char} (m₀ : List Char)
    (h : OccursAt true r m) : OccursAt false (m₀ ++ r) m := by
  obtain ⟨pre, post, heq, hlast, hhead⟩ := h
  cases hpre : pre with
  | nil =>
    rw [hpre] at hlast
    exact absurd hlast (by simp [lastOkB])
  | cons c' pre' =>
    refine ⟨m₀ ++ pre, post, by simp [heq], ?_, hhead⟩
    rw [lastOkB_append_ne_nil false true m₀ (show pre ≠ [] by simp [hpre])]
    exact hlast

theorem shape_getLast_word {m : List Char} (hm : IsShape m) :
    ∃ c, m.getLast? = some c ∧ wordChar c = true := by
  obtain ⟨ls, ds, rfl, -, -, -, hne, hdig⟩ := hm
  obtain ⟨c, hc⟩ := getLast?_some_of_ne_nil hne
  refine ⟨c, ?_, ?_⟩
  · have h1 : ('-' :: ds : List Char) = ['-'] ++ ds := rfl
    rw [h1, ← List.append_assoc, List.getLast?_append, hc]
    rfl
  · exact wordChar_of_digit (hdig c (List.mem_of_mem_getLast? hc))

/-- No overlap: inside the text covered by a match `m₀` followed by the
rest `r`, a word-bounded shaped occurrence that does not start at the very
beginning lies entirely within `r`. -/
theorem occurs_within {m₀ r m : List Char} (h₀ : IsShape m₀) (hm : IsShape m)
    {pre post : List Char} (heq : m₀ ++ r = pre ++ m ++ post)
    (hpre : pre ≠ []) (hlast : lastOkB false pre = true)
    (hhead : headOk post = true) : OccursAt true r m := by
  have hcontra_eq : pre = m₀ → False := by
    intro hpm
    obtain ⟨w, hw, hword⟩ := shape_getLast_word h₀
    rw [hpm] at hlast
    rw [lastOkB, hw] at hlast
    simp [hword] at hlast
  rw [List.append_assoc] at heq
  rcases List.append_eq_append_iff.mp heq with ⟨a, ha1, ha2⟩ | ⟨c', hc1, hc2⟩
  · -- pre = m₀ ++ a : the occurrence is inside r
    cases haz : a with
    | nil =>
      rw [haz, List.append_nil] at ha1
      exact (hcontra_eq ha1).elim
    | cons x xs =>
      refine ⟨a, post, ?_, ?_, hhead⟩
      · rw [ha2]
        simp [List.append_assoc]
      · rw [ha1, lastOkB_append_ne_nil false true m₀ (by simp [haz])] at hlast
        exact hlast
  · -- m₀ = pre ++ c' : pre is a piece of m₀, impossible
    exfalso
    cases hcz : c' with
    | nil =>
      rw [hcz, List.append_nil] at hc1
      exact hcontra_eq hc1.symm
    | cons x xs =>
      obtain ⟨ls, ds, hm0, h2, h10, hup, hdne, hdig⟩ := h₀
      rw [hm0] at hc1
      rcases List.append_eq_append_iff.mp hc1 with ⟨a2, ha1, ha2⟩ | ⟨b2, hb1, hb2⟩
      · -- pre = ls ++ a2 and '-' :: ds = a2 ++ c'
        cases ha2z : a2 with
        | nil =>
          rw [ha2z, List.append_nil] at ha1
          obtain ⟨u, hu⟩ := getLast?_some_of_ne_nil (ha1 ▸ hpre)
          have hmem : u ∈ ls := mem_of_getLast?_eq hu
          rw [ha1, lastOkB, hu] at hlast
          simp [wordChar_of_upper (hup u hmem)] at hlast
        | cons a0 a3 =>
          rw [ha2z] at ha2
          obtain ⟨ha0, hds⟩ := List.cons.inj ha2
          cases ha3z : a3 with
          | nil =>
            -- pre = ls ++ [hyphen], c' = ds : head of m clashes with a digit
            rw [ha3z] at hds
            have hc'ds : c' = ds := by
              rw [hds]
              rfl
            obtain ⟨ls2, ds2, hm2, h22, -, hup2, -, -⟩ := hm
            cases hls2 : ls2 with
            | nil =>
              rw [hls2] at h22
              simp at h22
            | cons u us =>
              cases hdsz : ds with
              | nil => exact hdne hdsz
              | cons d ds3 =>
                rw [hm2, hls2] at hc2
                rw [hc'ds, hdsz] at hc2
                have hc2' : u :: (us ++ '-' :: ds2) ++ post =
                    d :: (ds3 ++ r) := by
                  simpa using hc2
                have hhd := (List.cons.inj (by simpa using hc2')).1
                have hu : isUpperAZ u = true :=
                  hup2 u (by rw [hls2]; simp)
                have hd : isDigit09 d = true := hdig d (by rw [hdsz]; simp)
                rw [hhd] at hu
                rw [not_digit_of_upper hu] at hd
                exact Bool.false_ne_true hd
          | cons a4 a5 =>
            -- the last character of pre is a digit of ds
            rw [ha3z] at hds
            obtain ⟨w, hw⟩ := getLast?_some_of_ne_nil
              (show (a4 :: a5 : List Char) ≠ [] by simp)
            have hwds : w ∈ ds := by
              rw [hds]
              exact List.mem_append_left _ (mem_of_getLast?_eq hw)
            have hpre2 : pre = (ls ++ ['-']) ++ (a4 :: a5) := by
              rw [ha1, ha2z, ha0, ha3z]
              simp
            rw [hpre2, lastOkB_append_ne_nil false false (ls ++ ['-'])
              (by simp)] at hlast
            rw [lastOkB, hw] at hlast
            simp [wordChar_of_digit (hdig w hwds)] at hlast
      · -- ls = pre ++ b2 : the last character of pre is a letter
        obtain ⟨u, hu⟩ := getLast?_some_of_ne_nil hpre
        have hmem : u ∈ ls := by
          rw [hb1]
          exact List.mem_append_left _ (mem_of_getLast?_eq hu)
        rw [lastOkB, hu] at hlast
        simp [wordChar_of_upper (hup u hmem)] at hlast

/-- Characterization of the scan: a pair is produced exactly when its
text has the pattern shape, its letter group is the uppercase run of the
text, and the text occurs word-bounded in the input. -/
theorem scanFuel_mem :
    ∀ (n : Nat) (cs : List Char), cs.length ≤ n → ∀ (b : Bool) (m p : List Char),
      ((m, p) ∈ scanFuel n b cs ↔
        IsShape m ∧ p = m.takeWhile isUpperAZ ∧ OccursAt b cs m) := by
  intro n
  induction n with
  | zero =>
    intro cs hlen b m p
    have hnil : cs = [] := List.length_eq_zero.mp (Nat.le_zero.mp hlen)
    subst hnil
    simp only [scanFuel, List.not_mem_nil, false_iff]
    rintro ⟨hm, -, hocc⟩
    exact occursAt_nil_false hm b hocc
  | succ n ih =>
    intro cs hlen b m p
    cases cs with
    | nil =>
      simp only [scanFuel, List.not_mem_nil, false_iff]
      rintro ⟨hm, -, hocc⟩
      exact occursAt_nil_false hm b hocc
    | cons c rest =>
      have hrest : rest.length ≤ n := by
        simp only [List.length_cons] at hlen
        omega
      cases b with
      | true =>
        simp only [scanFuel, if_true]
        rw [ih rest hrest (wordChar c) m p]
        constructor
        · rintro ⟨hm, hp, hocc⟩
          exact ⟨hm, hp, (occursAt_cons true c rest m).mpr (Or.inr hocc)⟩
        · rintro ⟨hm, hp, hocc⟩
          rcases (occursAt_cons true c rest m).mp hocc with ⟨hb, -⟩ | hocc2
          · exact absurd hb (by simp)
          · exact ⟨hm, hp, hocc2⟩
      | false =>
        cases htm : tryMatchAt (c :: rest) with
        | none =>
          have hstep : scanFuel (n + 1) false (c :: rest) =
              scanFuel n (wordChar c) rest := by
            simp [scanFuel, htm]
          rw [hstep, ih rest hrest (wordChar c) m p]
          constructor
          · rintro ⟨hm, hp, hocc⟩
            exact ⟨hm, hp, (occursAt_cons false c rest m).mpr (Or.inr hocc)⟩
          · rintro ⟨hm, hp, hocc⟩
            rcases (occursAt_cons false c rest m).mp hocc with
              ⟨-, post, heq, hhead⟩ | hocc2
            · exfalso
              have := tryMatchAt_complete hm hhead
              rw [← heq] at this
              rw [htm] at this
              exact Option.noConfusion this
            · exact ⟨hm, hp, hocc2⟩
        | some val =>
          obtain ⟨m₀, p₀, r⟩ := val
          obtain ⟨hcs, h₀, hr, hp₀⟩ := tryMatchAt_sound htm
          have hstep : scanFuel (n + 1) false (c :: rest) =
              (m₀, p₀) :: scanFuel n true r := by
            simp [scanFuel, htm]
          have hrlen : r.length ≤ n := by
            have h4 := shape_length h₀
            have : (c :: rest).length = m₀.length + r.length := by
              rw [hcs, List.length_append]
            simp only [List.length_cons] at this hlen
            omega
          rw [hstep]
          simp only [List.mem_cons, Prod.mk.injEq]
          rw [ih r hrlen true m p]
          constructor
          · rintro (⟨rfl, rfl⟩ | ⟨hm, hp, hocc⟩)
            · refine ⟨h₀, hp₀, [], r, by simpa using hcs, by simp [lastOkB], hr⟩
            · refine ⟨hm, hp, ?_⟩
              rw [hcs]
              exact occursAt_lift m₀ hocc
          · rintro ⟨hm, hp, pre, post, heq, hlast, hhead⟩
            cases hprez : pre with
            | nil =>
              left
              rw [hprez] at heq
              simp only [List.nil_append] at heq
              have hcomp := tryMatchAt_complete hm hhead
              rw [← heq, htm] at hcomp
              simp only [Option.some.injEq, Prod.mk.injEq] at hcomp
              obtain ⟨h1, h2, -⟩ := hcomp
              exact ⟨h1.symm, by rw [hp, h2]⟩
            | cons c2 pre2 =>
              right
              refine ⟨hm, hp, ?_⟩
              rw [hcs] at heq
              exact occurs_within h₀ hm heq (by simp [hprez]) hlast hhead

/-- One step of the dedup loop: append unless already present. -/
def dedupStep (acc : List (List Char)) (x : List Char) : List (List Char) :=
  if x ∈ acc then acc else acc ++ [x]

theorem mem_foldl_dedupStep (a : List Char) :
    ∀ (l acc : List (List Char)),
      a ∈ l.foldl dedupStep acc ↔ a ∈ acc ∨ a ∈ l := by
  intro l
  induction l with
  | nil => simp
  | cons x t ih =>
    intro acc
    simp only [List.foldl_cons, ih, dedupStep]
    by_cases hx : x ∈ acc
    · simp only [if_pos hx, List.mem_cons]
      constructor
      · rintro (h | h)
        · exact Or.inl h
        · exact Or.inr (Or.inr h)
      · rintro (h | rfl | h)
        · exact Or.inl h
        · exact Or.inl hx
        · exact Or.inr h
    · simp only [if_neg hx, List.mem_append, List.mem_singleton, List.mem_cons]
      tauto

theorem nodup_foldl_dedupStep :
    ∀ (l acc : List (List Char)), acc.Nodup → (l.foldl dedupStep acc).Nodup := by
  intro l
  induction l with
  | nil => intro acc h; simpa using h
  | cons x t ih =>
    intro acc h
    simp only [List.foldl_cons]
    apply ih
    unfold dedupStep
    by_cases hx : x ∈ acc
    · simpa [hx] using h
    · rw [if_neg hx]
      simpa [List.nodup_append] using ⟨h, hx⟩

theorem firstIdx_append_of_mem {a : List Char} :
    ∀ {l : List (List Char)} (t : List (List Char)), a ∈ l →
      firstIdx (l ++ t) a = firstIdx l a := by
  intro l
  induction l with
  | nil => intro t h; simp at h
  | cons x s ih =>
    intro t h
    by_cases hx : x = a
    · simp [firstIdx, hx]
    · have ha : a ∈ s := by
        rcases List.mem_cons.mp h with h1 | h1
        · exact absurd h1.symm hx
        · exact h1
      simp [firstIdx, hx, ih t ha]

theorem firstIdx_append_of_not_mem {a : List Char} :
    ∀ {l : List (List Char)} (t : List (List Char)), a ∉ l →
      firstIdx (l ++ t) a = l.length + firstIdx t a := by
  intro l
  induction l with
  | nil => intro t _; simp
  | cons x s ih =>
    intro t h
    have hx : x ≠ a := fun hxa => h (by simp [hxa])
    have ha : a ∉ s := fun hs => h (by simp [hs])
    simp [firstIdx, hx, ih t ha]
    omega

theorem firstIdx_lt_length_of_mem {a : List Char} :
    ∀ {l : List (List Char)}, a ∈ l → firstIdx l a < l.length := by
  intro l
  induction l with
  | nil => intro h; simp at h
  | cons x s ih =>
    intro h
    by_cases hx : x = a
    · simp [firstIdx, hx]
    · have ha : a ∈ s := by
        rcases List.mem_cons.mp h with h1 | h1
        · exact absurd h1.symm hx
        · exact h1
      simp only [firstIdx, if_neg hx, List.length_cons]
      have := ih ha
      omega

theorem pairwise_firstIdx_foldl (l : List (List Char)) :
    (l.foldl dedupStep []).Pairwise
      (fun a b => firstIdx l a < firstIdx l b) := by
  induction l using List.reverseRecOn with
  | nil => simp
  | append_singleton s x ih =>
    rw [List.foldl_append]
    have hmemout : ∀ a, a ∈ s.foldl dedupStep [] ↔ a ∈ s := by
      intro a
      simpa using mem_foldl_dedupStep a s []
    have hbase : (s.foldl dedupStep []).Pairwise
        (fun a b => firstIdx (s ++ [x]) a < firstIdx (s ++ [x]) b) := by
      refine List.Pairwise.imp_of_mem ?_ ih
      intro a b ha hb hlt
      rw [firstIdx_append_of_mem [x] ((hmemout a).mp ha),
        firstIdx_append_of_mem [x] ((hmemout b).mp hb)]
      exact hlt
    have hfold : List.foldl dedupStep (s.foldl dedupStep []) [x] =
        dedupStep (s.foldl dedupStep []) x := by
      simp [List.foldl]
    rw [hfold]
    by_cases hx : x ∈ s.foldl dedupStep []
    · rw [show dedupStep (s.foldl dedupStep []) x = s.foldl dedupStep [] by
        simp [dedupStep, hx]]
      exact hbase
    · rw [show dedupStep (s.foldl dedupStep []) x =
          s.foldl dedupStep [] ++ [x] by simp [dedupStep, hx]]
      have hxs : x ∉ s := fun hs => hx ((hmemout x).mpr hs)
      rw [List.pairwise_append]
      refine ⟨hbase, List.pairwise_singleton _ _, ?_⟩
      intro a ha b hb
      have hb' : b = x := by simpa using hb
      rw [hb']
      have has : a ∈ s := (hmemout a).mp ha
      rw [firstIdx_append_of_mem [x] has, firstIdx_append_of_not_mem [x] hxs]
      have h1 := firstIdx_lt_length_of_mem has
      simp [firstIdx]
      omega

theorem foldl_filter_map_eq {α β : Type} (p : α → Bool) (f : α → β)
    (g : List β → β → List β) :
    ∀ (l : List α) (acc : List β),
      l.foldl (fun acc2 x => if p x then g acc2 (f x) else acc2) acc =
        ((l.filter p).map f).foldl g acc := by
  intro l
  induction l with
  | nil => intro acc; rfl
  | cons x t ih =>
    intro acc
    by_cases hx : p x
    · simp [List.filter_cons, hx, ih]
    · simp only [List.foldl_cons, List.filter_cons]
      simp [hx, ih]

theorem foldl_flatten_eq {β : Type} (g : List β → β → List β) :
    ∀ (L : List (List β)) (acc : List β),
      L.flatten.foldl g acc = L.foldl (fun acc2 l => l.foldl g acc2) acc := by
  intro L
  induction L with
  | nil => intro acc; rfl
  | cons l t ih =>
    intro acc
    simp [List.foldl_append, ih]

/-- The extractor is the dedup fold over the retained match stream. -/
theorem extractIssues_eq_foldl (commits : List (List Char)) (pfx : List Char) :
    extractIssues commits pfx = (matchStream commits pfx).foldl dedupStep [] := by
  unfold extractIssues matchStream
  rw [foldl_flatten_eq, List.foldl_map]
  congr 1
  funext acc commit
  rw [← foldl_filter_map_eq (keepMatch pfx) Prod.fst dedupStep]
  rfl

/-- C1: for every list of commit texts and every (possibly empty) filter,
the extractor output has no duplicate identifiers, contains exactly the
identifiers of the retained match stream of the concatenated input, and
lists them in strictly increasing order of first occurrence in that
stream. -/
theorem c1_extract_nodup_first_occurrence
    (commits : List (List Char)) (pfx : List Char) :
    (extractIssues commits pfx).Nodup ∧
      (∀ a, a ∈ extractIssues commits pfx ↔ a ∈ matchStream commits pfx) ∧
      (extractIssues commits pfx).Pairwise
        (fun a b => firstIdx (matchStream commits pfx) a <
          firstIdx (matchStream commits pfx) b) := by
  rw [extractIssues_eq_foldl]
  refine ⟨nodup_foldl_dedupStep _ [] (List.nodup_nil), ?_, ?_⟩
  · intro a
    simpa using mem_foldl_dedupStep a (matchStream commits pfx) []
  · exact pairwise_firstIdx_foldl _

theorem findMatches_mem (text m p : List Char) :
    (m, p) ∈ findMatches text ↔
      IsShape m ∧ p = m.takeWhile isUpperAZ ∧ OccursAt false text m :=
  scanFuel_mem text.length text le_rfl false m p

theorem mem_matchStream (commits : List (List Char)) (pfx m : List Char) :
    m ∈ matchStream commits pfx ↔
      ∃ text ∈ commits, ∃ pr, (m, pr) ∈ findMatches text ∧
        keepMatch pfx (m, pr) = true := by
  unfold matchStream
  rw [List.mem_flatten]
  constructor
  · rintro ⟨l, hl, hml⟩
    obtain ⟨text, htext, rfl⟩ := List.mem_map.mp hl
    obtain ⟨mp, hmp, hfst⟩ := List.mem_map.mp hml
    obtain ⟨hin, hkeep⟩ := List.mem_filter.mp hmp
    refine ⟨text, htext, mp.2, ?_, ?_⟩
    · rw [show (m, mp.2) = mp by rw [← hfst]]
      exact hin
    · rw [show (m, mp.2) = mp by rw [← hfst]]
      exact hkeep
  · rintro ⟨text, htext, pr, hin, hkeep⟩
    refine ⟨((findMatches text).filter (keepMatch pfx)).map Prod.fst,
      List.mem_map.mpr ⟨text, htext, rfl⟩, ?_⟩
    exact List.mem_map.mpr ⟨(m, pr), List.mem_filter.mpr ⟨hin, hkeep⟩, rfl⟩

/-- Membership characterization of the extractor: an identifier is emitted
exactly when it has the pattern shape, passes the filter, and occurs
word-bounded in one of the commits. -/
theorem extract_mem_char (commits : List (List Char)) (pfx m : List Char) :
    m ∈ extractIssues commits pfx ↔
      IsShape m ∧ keepMatch pfx (m, m.takeWhile isUpperAZ) = true ∧
        ∃ text ∈ commits, OccursAt false text m := by
  rw [extractIssues_eq_foldl]
  have hmem := mem_foldl_dedupStep m (matchStream commits pfx) []
  simp only [List.not_mem_nil, false_or] at hmem
  rw [hmem, mem_matchStream]
  constructor
  · rintro ⟨text, htext, pr, hfm, hkeep⟩
    obtain ⟨hshape, hpr, hocc⟩ := (findMatches_mem text m pr).mp hfm
    subst hpr
    exact ⟨hshape, hkeep, text, htext, hocc⟩
  · rintro ⟨hshape, hkeep, text, htext, hocc⟩
    exact ⟨text, htext, m.takeWhile isUpperAZ,
      (findMatches_mem text m _).mpr ⟨hshape, rfl, hocc⟩, hkeep⟩

/-- C5: a token is extracted exactly when it consists of 2 to 10 uppercase
ASCII letters, a hyphen, and one or more decimal digits, occurring with
word-boundary context on both sides (word characters being ASCII letters,
digits and the underscore, as for the regex \b), subject only to the
prefix filter: no token violating this shape is emitted, and every such
word-bounded token passing the filter is emitted. -/
theorem c5_extraction_characterization (commits : List (List Char))
    (pfx m : List Char) :
    m ∈ extractIssues commits pfx ↔
      IsShape m ∧ keepMatch pfx (m, m.takeWhile isUpperAZ) = true ∧
        ∃ text ∈ commits, OccursAt false text m :=
  extract_mem_char commits pfx m

/-- C6: with a nonempty filter, exactly the tokens whose letter group
equals the filter case-insensitively are retained among the unfiltered
extraction; every emitted identifier occurs verbatim (original casing) in
some commit text; and every emitted identifier has uppercase letters and
digits, so a lowercase token is never extracted under any filter. -/
theorem c6_prefix_filter (commits : List (List Char)) (pfx : List Char)
    (hne : pfx ≠ []) :
    (∀ m, m ∈ extractIssues commits pfx ↔
        m ∈ extractIssues commits [] ∧
          eqFold (m.takeWhile isUpperAZ) pfx = true) ∧
    (∀ m ∈ extractIssues commits pfx,
        ∃ text ∈ commits, ∃ pre post, text = pre ++ m ++ post) ∧
    (∀ m ∈ extractIssues commits pfx,
        ∃ ls ds, m = ls ++ '-' :: ds ∧ (∀ c ∈ ls, isUpperAZ c = true) ∧
          ∀ c ∈ ds, isDigit09 c = true) := by
  have hkeep_ne : ∀ q : List Char × List Char,
      keepMatch pfx q = (eqFold q.2 pfx : Bool) := by
    intro q
    unfold keepMatch
    cases pfx with
    | nil => exact absurd rfl hne
    | cons a b => simp [List.isEmpty]
  have hkeep_nil : ∀ q : List Char × List Char, keepMatch [] q = true := by
    intro q
    unfold keepMatch
    simp [List.isEmpty]
  refine ⟨?_, ?_, ?_⟩
  · intro m
    rw [extract_mem_char, extract_mem_char, hkeep_ne, hkeep_nil]
    constructor
    · rintro ⟨hshape, hkeep, hocc⟩
      exact ⟨⟨hshape, rfl, hocc⟩, hkeep⟩
    · rintro ⟨⟨hshape, -, hocc⟩, hkeep⟩
      exact ⟨hshape, hkeep, hocc⟩
  · intro m hm
    obtain ⟨-, -, text, htext, pre, post, heq, -, -⟩ :=
      (extract_mem_char commits pfx m).mp hm
    exact ⟨text, htext, pre, post, heq⟩
  · intro m hm
    obtain ⟨⟨ls, ds, hshape, -, -, hup, -, hdig⟩, -, -⟩ :=
      (extract_mem_char commits pfx m).mp hm
    exact ⟨ls, ds, hshape, hup, hdig⟩

theorem c6_witness :
    "ENG-12".data ∈
        extractIssues ["do ENG-12 dev-3 TEAM-4".data] "eng".data ∧
      ∃ text ∈ ["do ENG-12 dev-3 TEAM-4".data],
        ∃ pre post, text = pre ++ "ENG-12".data ++ post := by
  have h := c6_prefix_filter ["do ENG-12 dev-3 TEAM-4".data] "eng".data
    (by decide)
  have hmem : "ENG-12".data ∈
      extractIssues ["do ENG-12 dev-3 TEAM-4".data] "eng".data :=
    (h.1 "ENG-12".data).mpr ⟨by decide, by decide⟩
  exact ⟨hmem, h.2.1 "ENG-12".data hmem⟩

/-- Workflow state of the tracker (source struct State); the source field
named Type is `stype` here because of the Lean keyword. -/
structure State where
  id : String
  name : String
  stype : String
deriving Repr, DecidableEq

/-- Linear team with its workflow states (source struct Team). -/
structure Team where
  id : String
  key : String
  name : String
  states : List State
deriving Repr, DecidableEq

/-- Linear issue (source struct Issue). -/
structure Issue where
  id : String
  identifier : String
  title : String
  state : State
  url : String
deriving Repr, DecidableEq

/-- Input of the create-issue operation (source struct CreateIssueInput). -/
structure CreateIssueInput where
  teamID : String
  title : String
  description : String
  priority : Int
  projectID : String
  assigneeID : String
deriving Repr, DecidableEq

/-- Release-issue settings (source struct ReleaseIssueConfig). -/
structure ReleaseIssueConfig where
  title : String
  description : String
  labels : List String
  priority : Int
  assignee : String
deriving Repr, DecidableEq

/-- Plugin configuration (source struct Config); the source field
IssuePrefix is `issuePfx` here. -/
structure Config where
  apiKey : String
  teamID : String
  teamKey : String
  projectID : String
  issuePfx : String
  releasedState : String
  createReleaseIssue : Bool
  updateLinkedIssues : Bool
  addReleaseComment : Bool
  commentTemplate : String
  releaseIssue : ReleaseIssueConfig
deriving Repr, DecidableEq

/-- The GraphQL gateway as a deterministic oracle for one run: each remote
operation of LinearClient either returns a typed result or an error
message, as the Go client surfaces them. -/
structure Gateway where
  getTeam : String → String → Except String Team
  getIssueByIdentifier : String → Except String Issue
  createIssue : CreateIssueInput → Except String Issue
  updateIssueState : String → String → Except String Unit
  addComment : String → String → Except String Unit

/-- Trace of the operations a handler performs: the five gateway calls,
template renders, and extractor invocations. -/
inductive Call where
  | getTeamCall (teamID teamKey : String)
  | getIssueCall (identifier : String)
  | createIssueCall (input : CreateIssueInput)
  | updateStateCall (issueID stateID : String)
  | addCommentCall (issueID body : String)
  | renderCall (tmpl : String)
  | extractCall (commits : List String)
deriving Repr, DecidableEq

/-- Value of renderTemplate as used by callers that discard the error:
the Go function returns the empty string on a parse or execute error. -/
def renderValue : Except String String → String
  | .ok s2 => s2
  | .error _ => ""

/-- strings.EqualFold on ASCII data, as used for workflow state names. -/
def eqFoldS (a b : String) : Bool :=
  a.data.map Char.toLower == b.data.map Char.toLower

/-- strings.Join. -/
def joinSep (sep : String) : List String → String
  | [] => ""
  | [x] => x
  | x :: xs => x ++ sep ++ joinSep sep xs

/-- Accumulated outcome of the linked-issue loop of processLinkedIssues:
the Go return values (updated, commented, errs) plus the call trace. -/
structure RunAcc where
  updated : Nat
  commented : Nat
  errs : List String
  calls : List Call
deriving Repr, DecidableEq

/-- Body of the loop of processLinkedIssues for one identifier: fetch the
issue (on failure record a warning and do nothing else), optionally update
its state, optionally add the comment. -/
def processIssue (gw : Gateway) (updateEnabled : Bool) (rid : String)
    (commentEnabled : Bool) (comment : String) (issueID : String) : RunAcc :=
  match gw.getIssueByIdentifier issueID with
  | .error e =>
    { updated := 0, commented := 0,
      errs := ["Issue " ++ issueID ++ " not found: " ++ e],
      calls := [Call.getIssueCall issueID] }
  | .ok issue =>
    let stepU : Nat × List String × List Call :=
      if updateEnabled ∧ rid ≠ "" then
        match gw.updateIssueState issue.id rid with
        | .ok _ => (1, [], [Call.updateStateCall issue.id rid])
        | .error e => (0, ["Failed to update " ++ issueID ++ ": " ++ e],
            [Call.updateStateCall issue.id rid])
      else (0, [], [])
    let stepC : Nat × List String × List Call :=
      if commentEnabled ∧ comment ≠ "" then
        match gw.addComment issue.id comment with
        | .ok _ => (1, [], [Call.addCommentCall issue.id comment])
        | .error e =>
            (0, ["Failed to add comment to " ++ issueID ++ ": " ++ e],
              [Call.addCommentCall issue.id comment])
      else (0, [], [])
    { updated := stepU.1, commented := stepC.1,
      errs := stepU.2.1 ++ stepC.2.1,
      calls := Call.getIssueCall issueID :: (stepU.2.2 ++ stepC.2.2) }

/-- The loop of processLinkedIssues over all identifiers, accumulating
counters, warnings and calls in order. -/
def processList (gw : Gateway) (updateEnabled : Bool) (rid : String)
    (commentEnabled : Bool) (comment : String) : List String → RunAcc
  | [] => ⟨0, 0, [], []⟩
  | issueID :: rest =>
    let a := processIssue gw updateEnabled rid commentEnabled comment issueID
    let b := processList gw updateEnabled rid commentEnabled comment rest
    ⟨a.updated + b.updated, a.commented + b.commented,
      a.errs ++ b.errs, a.calls ++ b.calls⟩

/-- The warning recorded when the configured released state is not found
in the team workflow. -/
def stateWarning (name : String) : String :=
  "State \x27" ++ name ++ "\x27 not found in team workflow"

/-- The released-state resolution of processLinkedIssues, performed once
per run: the first state whose name matches case-insensitively, or the
empty id. -/
def resolvedStateID (cfg : Config) (team : Team) : String :=
  if cfg.updateLinkedIssues ∧ cfg.releasedState ≠ "" then
    ((team.states.find? (fun st => eqFoldS st.name cfg.releasedState)).map
      State.id).getD ""
  else ""

/-- The one-per-run comment-template render of processLinkedIssues:
comment body, whether commenting stays enabled, and the render warning.
The flag models the reassignment of cfg.AddReleaseComment in the source. -/
def commentStep (render : String → Except String String) (cfg : Config) :
    String × Bool × List String :=
  if cfg.addReleaseComment then
    match render cfg.commentTemplate with
    | .ok s2 => (s2, true, [])
    | .error e => ("", false, ["Failed to render comment template: " ++ e])
  else ("", false, [])

/-- processLinkedIssues: resolve the released state id once, render the
comment template once, then run the per-issue loop. -/
def processLinkedIssues (gw : Gateway)
    (render : String → Except String String) (cfg : Config) (team : Team)
    (issueIDs : List String) : RunAcc :=
  let rid : String := resolvedStateID cfg team
  let errs0 : List String :=
    if cfg.updateLinkedIssues ∧ cfg.releasedState ≠ "" ∧ rid = "" then
      [stateWarning cfg.releasedState]
    else []
  let rcalls : List Call :=
    if cfg.addReleaseComment then [Call.renderCall cfg.commentTemplate]
    else []
  let cstep : String × Bool × List String := commentStep render cfg
  let lr := processList gw cfg.updateLinkedIssues rid cstep.2.1 cstep.1
    issueIDs
  { updated := lr.updated, commented := lr.commented,
    errs := errs0 ++ cstep.2.2 ++ lr.errs,
    calls := rcalls ++ lr.calls }

/-- createReleaseIssue: render the title and description templates, then
call create-issue; the first failure aborts with a wrapped error. -/
def createReleaseIssue (gw : Gateway)
    (render : String → Except String String) (cfg : Config) (team : Team) :
    Except String Issue × List Call :=
  match render cfg.releaseIssue.title with
  | .error e => (.error ("failed to render title template: " ++ e),
      [Call.renderCall cfg.releaseIssue.title])
  | .ok title =>
    match render cfg.releaseIssue.description with
    | .error e => (.error ("failed to render description template: " ++ e),
        [Call.renderCall cfg.releaseIssue.title,
          Call.renderCall cfg.releaseIssue.description])
    | .ok descr =>
      let input : CreateIssueInput :=
        { teamID := team.id, title := title, description := descr,
          priority := cfg.releaseIssue.priority,
          projectID := if cfg.projectID ≠ "" then cfg.projectID else "",
          assigneeID := "" }
      (gw.createIssue input,
        [Call.renderCall cfg.releaseIssue.title,
          Call.renderCall cfg.releaseIssue.description,
          Call.createIssueCall input])

/-- Host-visible response (plugin.ExecuteResponse without outputs, which
the post-publish handler never sets). -/
structure ExecuteResponse where
  success : Bool
  message : String
  error : String
deriving Repr, DecidableEq

/-- A handler result: the response plus the trace of performed calls. -/
structure HookResult where
  resp : ExecuteResponse
  calls : List Call
deriving Repr, DecidableEq

/-- The extractor on strings, as invoked by the handlers. -/
def extractIssuesS (commits : List String) (pfx : String) : List String :=
  (extractIssues (commits.map String.data) pfx.data).map List.asString

/-- Tail of handlePostPublish after release-issue creation: extract the
linked identifiers and reconcile them, then build the summary message. -/
def postPublishLinked (gw : Gateway)
    (render : String → Except String String) (cfg : Config) (team : Team)
    (commits : List String) (results0 : List String) (calls0 : List Call) :
    HookResult :=
  let step : List String × List Call :=
    if cfg.updateLinkedIssues ∨ cfg.addReleaseComment then
      let issues := extractIssuesS commits cfg.issuePfx
      if issues ≠ [] then
        let lr := processLinkedIssues gw render cfg team issues
        ((if lr.updated > 0 then
            ["Updated " ++ toString lr.updated ++ " issue(s) to \x27" ++
              cfg.releasedState ++ "\x27"]
          else []) ++
          (if lr.commented > 0 then
            ["Added release comment to " ++ toString lr.commented ++
              " issue(s)"]
          else []) ++
          lr.errs.map (fun e => "Warning: " ++ e),
          Call.extractCall commits :: lr.calls)
      else ([], [Call.extractCall commits])
    else ([], [])
  let results1 := results0 ++ step.1
  let results2 := if results1 = [] then ["No actions taken"] else results1
  { resp :=
      { success := true, message := joinSep "; " results2, error := "" },
    calls := calls0 ++ step.2 }

/-- handlePostPublish: dry-run renders previews only; otherwise resolve
the team, optionally create the tracking issue (fatal on failure), then
reconcile linked issues. `commits` is the concatenation of the four commit
buckets of the release context, in the fixed source order; `render` is
renderTemplate applied to that release context. -/
def handlePostPublish (gw : Gateway)
    (render : String → Except String String) (cfg : Config)
    (commits : List String) (dryRun : Bool) : HookResult :=
  if dryRun then
    let part1 := if cfg.createReleaseIssue then
        ["Would create release issue: " ++
          renderValue (render cfg.releaseIssue.title)]
      else []
    let calls1 : List Call := if cfg.createReleaseIssue then
        [Call.renderCall cfg.releaseIssue.title]
      else []
    let part2 := if cfg.updateLinkedIssues then
        ["Would update linked issues to state: " ++ cfg.releasedState]
      else []
    let part3 := if cfg.addReleaseComment then
        ["Would add comment to linked issues: " ++
          renderValue (render cfg.commentTemplate)]
      else []
    let calls3 : List Call := if cfg.addReleaseComment then
        [Call.renderCall cfg.commentTemplate]
      else []
    { resp :=
        { success := true, message := joinSep "; " (part1 ++ part2 ++ part3),
          error := "" },
      calls := calls1 ++ calls3 }
  else
    match gw.getTeam cfg.teamID cfg.teamKey with
    | .error e =>
      { resp :=
          { success := false, message := "",
            error := "Failed to get team: " ++ e },
        calls := [Call.getTeamCall cfg.teamID cfg.teamKey] }
    | .ok team =>
      if cfg.createReleaseIssue then
        let cr := createReleaseIssue gw render cfg team
        match cr.1 with
        | .error e =>
          { resp :=
              { success := false, message := "",
                error := "Failed to create release issue: " ++ e },
            calls := Call.getTeamCall cfg.teamID cfg.teamKey :: cr.2 }
        | .ok issue =>
          postPublishLinked gw render cfg team commits
            ["Created release issue: " ++ issue.identifier ++ " (" ++
              issue.url ++ ")"]
            (Call.getTeamCall cfg.teamID cfg.teamKey :: cr.2)
      else
        postPublishLinked gw render cfg team commits []
          [Call.getTeamCall cfg.teamID cfg.teamKey]

/-- Whether an Except value is a success. -/
def isOkB {e a : Type} : Except e a → Bool
  | .ok _ => true
  | .error _ => false

/-- Whether one identifier yields a successful state update in the loop. -/
def updOK (gw : Gateway) (upd : Bool) (rid : String) (i : String) : Bool :=
  match gw.getIssueByIdentifier i with
  | .error _ => false
  | .ok issue =>
    if upd ∧ rid ≠ "" then isOkB (gw.updateIssueState issue.id rid)
    else false

/-- Whether one identifier yields a successful comment in the loop. -/
def comOK (gw : Gateway) (cEn : Bool) (cm : String) (i : String) : Bool :=
  match gw.getIssueByIdentifier i with
  | .error _ => false
  | .ok issue =>
    if cEn ∧ cm ≠ "" then isOkB (gw.addComment issue.id cm)
    else false

theorem processIssue_error {gw : Gateway} {i e : String}
    (h : gw.getIssueByIdentifier i = .error e)
    (upd : Bool) (rid : String) (cEn : Bool) (cm : String) :
    processIssue gw upd rid cEn cm i =
      ⟨0, 0, ["Issue " ++ i ++ " not found: " ++ e],
        [Call.getIssueCall i]⟩ := by
  simp [processIssue, h]

theorem processIssue_updated (gw : Gateway) (upd : Bool) (rid : String)
    (cEn : Bool) (cm : String) (i : String) :
    (processIssue gw upd rid cEn cm i).updated =
      if updOK gw upd rid i then 1 else 0 := by
  unfold processIssue updOK
  cases hg : gw.getIssueByIdentifier i with
  | error e => simp
  | ok issue =>
    by_cases hcond : upd ∧ rid ≠ ""
    · simp only [if_pos hcond]
      cases hu : gw.updateIssueState issue.id rid <;> simp [isOkB]
    · simp [hcond]

theorem processIssue_commented (gw : Gateway) (upd : Bool) (rid : String)
    (cEn : Bool) (cm : String) (i : String) :
    (processIssue gw upd rid cEn cm i).commented =
      if comOK gw cEn cm i then 1 else 0 := by
  unfold processIssue comOK
  cases hg : gw.getIssueByIdentifier i with
  | error e => simp
  | ok issue =>
    by_cases hcond : cEn ∧ cm ≠ ""
    · simp only [if_pos hcond]
      cases hu : gw.addComment issue.id cm <;> simp [isOkB]
    · simp [hcond]

theorem processIssue_comment_attempted {gw : Gateway} {i : String}
    {issue : Issue} (h : gw.getIssueByIdentifier i = .ok issue)
    (upd : Bool) (rid : String) {cEn : Bool} {cm : String}
    (hcEn : cEn = true) (hcm : cm ≠ "") :
    Call.addCommentCall issue.id cm ∈
      (processIssue gw upd rid cEn cm i).calls := by
  subst hcEn
  unfold processIssue
  rw [h]
  simp only [List.mem_cons, List.mem_append]
  right
  right
  rw [if_pos (show True ∧ cm ≠ "" from ⟨trivial, hcm⟩)]
  cases hc : gw.addComment issue.id cm <;> simp

theorem processList_append (gw : Gateway) (upd : Bool) (rid : String)
    (cEn : Bool) (cm : String) (ids1 ids2 : List String) :
    processList gw upd rid cEn cm (ids1 ++ ids2) =
      ⟨(processList gw upd rid cEn cm ids1).updated +
          (processList gw upd rid cEn cm ids2).updated,
        (processList gw upd rid cEn cm ids1).commented +
          (processList gw upd rid cEn cm ids2).commented,
        (processList gw upd rid cEn cm ids1).errs ++
          (processList gw upd rid cEn cm ids2).errs,
        (processList gw upd rid cEn cm ids1).calls ++
          (processList gw upd rid cEn cm ids2).calls⟩ := by
  induction ids1 with
  | nil => simp [processList]
  | cons i rest ih =>
    simp [processList, ih, Nat.add_assoc, List.append_assoc]

theorem processList_updated (gw : Gateway) (upd : Bool) (rid : String)
    (cEn : Bool) (cm : String) (ids : List String) :
    (processList gw upd rid cEn cm ids).updated =
      (ids.filter (updOK gw upd rid)).length := by
  induction ids with
  | nil => rfl
  | cons i rest ih =>
    simp only [processList, List.filter_cons]
    rw [processIssue_updated]
    by_cases h : updOK gw upd rid i
    · simp [h, ih, Nat.add_comm]
    · simp [h, ih]

theorem processList_commented (gw : Gateway) (upd : Bool) (rid : String)
    (cEn : Bool) (cm : String) (ids : List String) :
    (processList gw upd rid cEn cm ids).commented =
      (ids.filter (comOK gw cEn cm)).length := by
  induction ids with
  | nil => rfl
  | cons i rest ih =>
    simp only [processList, List.filter_cons]
    rw [processIssue_commented]
    by_cases h : comOK gw cEn cm i
    · simp [h, ih, Nat.add_comm]
    · simp [h, ih]

theorem processIssue_calls_kinds (gw : Gateway) (upd : Bool) (rid : String)
    (cEn : Bool) (cm : String) (i : String) :
    ∀ c ∈ (processIssue gw upd rid cEn cm i).calls,
      (∃ j, c = Call.getIssueCall j) ∨
        (∃ j, c = Call.updateStateCall j rid) ∨
        ∃ j, c = Call.addCommentCall j cm := by
  intro c hc
  unfold processIssue at hc
  cases hg : gw.getIssueByIdentifier i with
  | error e =>
    rw [hg] at hc
    simp only [List.mem_singleton] at hc
    exact Or.inl ⟨i, hc⟩
  | ok issue =>
    rw [hg] at hc
    simp only [List.mem_cons] at hc
    rcases hc with rfl | hc
    · exact Or.inl ⟨i, rfl⟩
    rw [List.mem_append] at hc
    rcases hc with hc | hc
    · by_cases hcond : upd ∧ rid ≠ ""
      · rw [if_pos hcond] at hc
        cases hu : gw.updateIssueState issue.id rid <;>
          rw [hu] at hc <;> simp only [List.mem_singleton] at hc <;>
          exact Or.inr (Or.inl ⟨issue.id, hc⟩)
      · rw [if_neg hcond] at hc
        simp at hc
    · by_cases hcond : cEn ∧ cm ≠ ""
      · rw [if_pos hcond] at hc
        cases hu : gw.addComment issue.id cm <;>
          rw [hu] at hc <;> simp only [List.mem_singleton] at hc <;>
          exact Or.inr (Or.inr ⟨issue.id, hc⟩)
      · rw [if_neg hcond] at hc
        simp at hc

theorem processList_calls_kinds (gw : Gateway) (upd : Bool) (rid : String)
    (cEn : Bool) (cm : String) (ids : List String) :
    ∀ c ∈ (processList gw upd rid cEn cm ids).calls,
      (∃ j, c = Call.getIssueCall j) ∨
        (∃ j, c = Call.updateStateCall j rid) ∨
        ∃ j, c = Call.addCommentCall j cm := by
  induction ids with
  | nil => intro c hc; simp [processList] at hc
  | cons i rest ih =>
    intro c hc
    simp only [processList, List.mem_append] at hc
    rcases hc with hc | hc
    · exact processIssue_calls_kinds gw upd rid cEn cm i c hc
    · exact ih c hc

theorem processIssue_errs_kinds (gw : Gateway) (upd : Bool) (rid : String)
    (cEn : Bool) (cm : String) (i : String) :
    ∀ e ∈ (processIssue gw upd rid cEn cm i).errs,
      (∃ t, e = "Issue " ++ t) ∨ ∃ t, e = "Failed " ++ t := by
  intro e he
  unfold processIssue at he
  cases hg : gw.getIssueByIdentifier i with
  | error e2 =>
    rw [hg] at he
    simp only [List.mem_singleton] at he
    refine Or.inl ⟨i ++ (" not found: " ++ e2), ?_⟩
    rw [he]
    simp [String.append_assoc]
  | ok issue =>
    rw [hg] at he
    simp only [List.mem_append] at he
    rcases he with he | he
    · by_cases hcond : upd ∧ rid ≠ ""
      · rw [if_pos hcond] at he
        cases hu : gw.updateIssueState issue.id rid with
        | ok a =>
          rw [hu] at he
          simp at he
        | error e3 =>
          rw [hu] at he
          simp only [List.mem_singleton] at he
          refine Or.inr ⟨"to update " ++ i ++ ": " ++ e3, ?_⟩
          have hlit : ("Failed to update " : String) =
              "Failed " ++ "to update " := by decide
          rw [he, hlit]
          simp only [String.append_assoc]
      · rw [if_neg hcond] at he
        simp at he
    · by_cases hcond : cEn ∧ cm ≠ ""
      · rw [if_pos hcond] at he
        cases hu : gw.addComment issue.id cm with
        | ok a =>
          rw [hu] at he
          simp at he
        | error e3 =>
          rw [hu] at he
          simp only [List.mem_singleton] at he
          refine Or.inr ⟨"to add comment to " ++ i ++ ": " ++ e3, ?_⟩
          have hlit : ("Failed to add comment to " : String) =
              "Failed " ++ "to add comment to " := by decide
          rw [he, hlit]
          simp only [String.append_assoc]
      · rw [if_neg hcond] at he
        simp at he

theorem processList_errs_kinds (gw : Gateway) (upd : Bool) (rid : String)
    (cEn : Bool) (cm : String) (ids : List String) :
    ∀ e ∈ (processList gw upd rid cEn cm ids).errs,
      (∃ t, e = "Issue " ++ t) ∨ ∃ t, e = "Failed " ++ t := by
  induction ids with
  | nil => intro e he; simp [processList] at he
  | cons i rest ih =>
    intro e he
    simp only [processList, List.mem_append] at he
    rcases he with he | he
    · exact processIssue_errs_kinds gw upd rid cEn cm i e he
    · exact ih e he

theorem processList_comment_attempted (gw : Gateway) (upd : Bool)
    (rid : String) {cEn : Bool} {cm : String} (hcEn : cEn = true)
    (hcm : cm ≠ "") (ids : List String) :
    ∀ i ∈ ids, ∀ issue, gw.getIssueByIdentifier i = .ok issue →
      Call.addCommentCall issue.id cm ∈
        (processList gw upd rid cEn cm ids).calls := by
  induction ids with
  | nil => intro i hi; simp at hi
  | cons j rest ih =>
    intro i hi issue hg
    simp only [processList, List.mem_append]
    rcases List.mem_cons.mp hi with rfl | hi2
    · exact Or.inl (processIssue_comment_attempted hg upd rid hcEn hcm)
    · exact Or.inr (ih i hi2 issue hg)

theorem processList_comment_enable_irrelevant (gw : Gateway) (upd : Bool)
    (rid : String) (b1 b2 : Bool) (ids : List String) :
    processList gw upd rid b1 "" ids = processList gw upd rid b2 "" ids := by
  induction ids with
  | nil => rfl
  | cons i rest ih =>
    simp only [processList, ih]
    have harg : processIssue gw upd rid b1 "" i =
        processIssue gw upd rid b2 "" i := by
      unfold processIssue
      cases hg : gw.getIssueByIdentifier i with
      | error e => rfl
      | ok issue =>
        have h1 : ¬(b1 = true ∧ ("" : String) ≠ "") := by simp
        have h2 : ¬(b2 = true ∧ ("" : String) ≠ "") := by simp
        simp [h1, h2]
    rw [harg]

theorem processList_no_comment_of_empty (gw : Gateway) (upd : Bool)
    (rid : String) (cEn : Bool) (ids : List String) :
    ∀ i b2, Call.addCommentCall i b2 ∉
      (processList gw upd rid cEn "" ids).calls := by
  intro i b2 hmem
  rcases processList_calls_kinds gw upd rid cEn "" ids _ hmem with
    ⟨j, hj⟩ | ⟨j, hj⟩ | ⟨j, hj⟩
  · exact Call.noConfusion hj
  · exact Call.noConfusion hj
  · have hb : b2 = "" := by
      injection hj
    have : comOK gw cEn "" i = comOK gw cEn "" i := rfl
    -- a comment call with empty body can never be produced
    revert hmem
    induction ids with
    | nil => intro hmem; simp [processList] at hmem
    | cons k rest ih =>
      intro hmem
      simp only [processList, List.mem_append] at hmem
      rcases hmem with hmem | hmem
      · unfold processIssue at hmem
        cases hg : gw.getIssueByIdentifier k with
        | error e =>
          rw [hg] at hmem
          simp at hmem
        | ok issue =>
          rw [hg] at hmem
          simp only [List.mem_cons] at hmem
          rcases hmem with heq | hmem
          · exact Call.noConfusion heq
          rw [List.mem_append] at hmem
          rcases hmem with hmem | hmem
          · by_cases hcond : upd ∧ rid ≠ ""
            · rw [if_pos hcond] at hmem
              cases hu : gw.updateIssueState issue.id rid <;>
                rw [hu] at hmem <;> simp only [List.mem_singleton] at hmem <;>
                exact Call.noConfusion hmem
            · rw [if_neg hcond] at hmem
              simp at hmem
          · have hcond : ¬(cEn = true ∧ ("" : String) ≠ "") := by simp
            rw [if_neg hcond] at hmem
            simp at hmem
      · exact ih hmem

theorem processList_no_update_of_rid_empty (gw : Gateway) (upd cEn : Bool)
    (cm : String) (ids : List String) :
    ∀ i st, Call.updateStateCall i st ∉
      (processList gw upd "" cEn cm ids).calls := by
  intro i st hmem
  induction ids with
  | nil => simp [processList] at hmem
  | cons k rest ih =>
    simp only [processList, List.mem_append] at hmem
    rcases hmem with hmem | hmem
    · unfold processIssue at hmem
      cases hg : gw.getIssueByIdentifier k with
      | error e =>
        rw [hg] at hmem
        simp at hmem
      | ok issue =>
        rw [hg] at hmem
        simp only [List.mem_cons] at hmem
        rcases hmem with heq | hmem
        · exact Call.noConfusion heq
        rw [List.mem_append] at hmem
        rcases hmem with hmem | hmem
        · have hcond : ¬(upd = true ∧ ("" : String) ≠ "") := by simp
          rw [if_neg hcond] at hmem
          simp at hmem
        · by_cases hcond : cEn = true ∧ cm ≠ ""
          · rw [if_pos hcond] at hmem
            cases hu : gw.addComment issue.id cm <;>
              rw [hu] at hmem <;> simp only [List.mem_singleton] at hmem <;>
              exact Call.noConfusion hmem
          · rw [if_neg hcond] at hmem
            simp at hmem
    · exact ih hmem

/-- Calls that belong to linked-issue reconciliation: extraction, issue
fetch, state update, comment. -/
def isReconCall : Call → Bool
  | .extractCall _ => true
  | .getIssueCall _ => true
  | .updateStateCall _ _ => true
  | .addCommentCall _ _ => true
  | _ => false

/-- Calls that hit the Gateway (network), as opposed to renders and the
pure extraction. -/
def isGatewayCall : Call → Bool
  | .getTeamCall _ _ => true
  | .getIssueCall _ => true
  | .createIssueCall _ => true
  | .updateStateCall _ _ => true
  | .addCommentCall _ _ => true
  | _ => false

/-- Template render events. -/
def isRenderCall : Call → Bool
  | .renderCall _ => true
  | _ => false

theorem ne_of_head {p q : String} {a b2 : Char}
    (hp : p.data.head? = some a) (hq : q.data.head? = some b2)
    (hab : a ≠ b2) (x y : String) : p ++ x ≠ q ++ y := by
  intro heq
  have hd := congrArg String.data heq
  rw [String.data_append, String.data_append] at hd
  have h1 : (p.data ++ x.data).head? = some a := by
    rw [List.head?_append, hp]
    rfl
  have h2 : (q.data ++ y.data).head? = some b2 := by
    rw [List.head?_append, hq]
    rfl
  rw [hd, h2] at h1
  exact hab (Option.some.inj h1).symm

theorem append_ne_empty {p : String} {c : Char}
    (h : p.data.head? = some c) (x : String) : p ++ x ≠ "" := by
  intro heq
  have hd := congrArg String.data heq
  rw [String.data_append] at hd
  have h1 : (p.data ++ x.data).head? = some c := by
    rw [List.head?_append, h]
    rfl
  rw [hd] at h1
  exact Option.noConfusion h1

theorem joinSep_cons_ex (sep x : String) (xs : List String) :
    ∃ t, joinSep sep (x :: xs) = x ++ t := by
  cases xs with
  | nil => exact ⟨"", (String.append_empty x).symm⟩
  | cons y ys =>
    refine ⟨sep ++ joinSep sep (y :: ys), ?_⟩
    show x ++ sep ++ joinSep sep (y :: ys) = _
    rw [String.append_assoc]

theorem createReleaseIssue_calls_kinds (gw : Gateway)
    (render : String → Except String String) (cfg : Config) (team : Team) :
    ∀ c ∈ (createReleaseIssue gw render cfg team).2,
      isReconCall c = false := by
  intro c hc
  unfold createReleaseIssue at hc
  cases h1 : render cfg.releaseIssue.title with
  | error e =>
    rw [h1] at hc
    simp only [List.mem_singleton] at hc
    rw [hc]
    rfl
  | ok title =>
    rw [h1] at hc
    cases h2 : render cfg.releaseIssue.description with
    | error e =>
      rw [h2] at hc
      simp only [List.mem_cons, List.not_mem_nil, or_false] at hc
      rcases hc with rfl | rfl <;> rfl
    | ok descr =>
      rw [h2] at hc
      simp only [List.mem_cons, List.not_mem_nil, or_false] at hc
      rcases hc with rfl | rfl | rfl <;> rfl

/-- C2: in the reconciliation loop every identifier is processed
independently: the outcome over a concatenation is the componentwise
combination of the outcomes of the parts (no short-circuiting); the
updated and commented counters count exactly the identifiers whose
corresponding operation succeeds; a fetch failure records exactly one
warning and performs no update or comment call for that identifier; and
whenever the fetch succeeds and commenting is on with a nonempty body, the
comment is attempted regardless of the update outcome. -/
theorem c2_process_linked_issues_independent (gw : Gateway) (upd : Bool)
    (rid : String) (cEn : Bool) (cm : String) :
    (∀ ids1 ids2, processList gw upd rid cEn cm (ids1 ++ ids2) =
      ⟨(processList gw upd rid cEn cm ids1).updated +
          (processList gw upd rid cEn cm ids2).updated,
        (processList gw upd rid cEn cm ids1).commented +
          (processList gw upd rid cEn cm ids2).commented,
        (processList gw upd rid cEn cm ids1).errs ++
          (processList gw upd rid cEn cm ids2).errs,
        (processList gw upd rid cEn cm ids1).calls ++
          (processList gw upd rid cEn cm ids2).calls⟩) ∧
    (∀ ids, (processList gw upd rid cEn cm ids).updated =
        (ids.filter (updOK gw upd rid)).length ∧
      (processList gw upd rid cEn cm ids).commented =
        (ids.filter (comOK gw cEn cm)).length) ∧
    (∀ i e, gw.getIssueByIdentifier i = .error e →
      processIssue gw upd rid cEn cm i =
        ⟨0, 0, ["Issue " ++ i ++ " not found: " ++ e],
          [Call.getIssueCall i]⟩) ∧
    (∀ i issue, gw.getIssueByIdentifier i = .ok issue → cEn = true →
      cm ≠ "" → Call.addCommentCall issue.id cm ∈
        (processIssue gw upd rid cEn cm i).calls) := by
  refine ⟨?_, ?_, ?_, ?_⟩
  · intro ids1 ids2
    exact processList_append gw upd rid cEn cm ids1 ids2
  · intro ids
    exact ⟨processList_updated gw upd rid cEn cm ids,
      processList_commented gw upd rid cEn cm ids⟩
  · intro i e he
    exact processIssue_error he upd rid cEn cm
  · intro i issue hg hcEn hcm
    exact processIssue_comment_attempted hg upd rid hcEn hcm

/-- C3: in a non-dry post-publish run with release-issue creation enabled,
if the creation step fails (render of the title or description template,
or the create call, for whatever team the gateway returns), the hook
answers success false with a nonempty error and performs no extraction,
issue fetch, state update or comment. -/
theorem c3_create_failure_fatal (gw : Gateway)
    (render : String → Except String String) (cfg : Config)
    (commits : List String)
    (hcreate : cfg.createReleaseIssue = true)
    (hfail : ∀ team, gw.getTeam cfg.teamID cfg.teamKey = .ok team →
      isOkB (createReleaseIssue gw render cfg team).1 = false) :
    (handlePostPublish gw render cfg commits false).resp.success = false ∧
    (handlePostPublish gw render cfg commits false).resp.error ≠ "" ∧
    ∀ c ∈ (handlePostPublish gw render cfg commits false).calls,
      isReconCall c = false := by
  unfold handlePostPublish
  rw [if_neg (by simp)]
  split
  · rename_i e heq
    refine ⟨rfl, ?_, ?_⟩
    · exact append_ne_empty
        (show ("Failed to get team: ").data.head? = some 'F' by decide) e
    · intro c hc
      simp only [List.mem_singleton] at hc
      rw [hc]
      rfl
  · rename_i team heq
    rw [if_pos hcreate]
    have hf := hfail team heq
    simp only
    split
    · rename_i e heq2
      refine ⟨rfl, ?_, ?_⟩
      · exact append_ne_empty
          (show ("Failed to create release issue: ").data.head? = some 'F'
            by decide) e
      · intro c hc
        simp only [List.mem_cons] at hc
        rcases hc with rfl | hc
        · rfl
        · exact createReleaseIssue_calls_kinds gw render cfg team c hc
    · rename_i issue heq2
      rw [heq2] at hf
      exact absurd hf (by simp [isOkB])

theorem mem_ite_singleton {α : Type} {b : Prop} [Decidable b] {c x : α}
    (h : c ∈ (if b then [x] else ([] : List α))) : c = x := by
  split at h
  · simpa using h
  · simp at h

/-- C7: a dry-run post-publish invocation with release-issue creation
enabled succeeds, its message contains the rendered title, and the trace
holds no gateway call at all (renders only). -/
theorem c7_dry_run_no_gateway (gw : Gateway)
    (render : String → Except String String) (cfg : Config)
    (commits : List String)
    (hcreate : cfg.createReleaseIssue = true) :
    (handlePostPublish gw render cfg commits true).resp.success = true ∧
    (∀ title, render cfg.releaseIssue.title = .ok title →
      ∃ s2 t2, (handlePostPublish gw render cfg commits true).resp.message =
        s2 ++ (title ++ t2)) ∧
    ∀ c ∈ (handlePostPublish gw render cfg commits true).calls,
      isGatewayCall c = false := by
  unfold handlePostPublish
  rw [if_pos rfl]
  refine ⟨rfl, ?_, ?_⟩
  · intro title hrt
    rw [if_pos hcreate]
    have hrv : renderValue (render cfg.releaseIssue.title) = title := by
      rw [hrt]
      rfl
    rw [hrv]
    simp only [List.singleton_append, List.cons_append, List.nil_append]
    obtain ⟨t2, ht2⟩ := joinSep_cons_ex "; "
      ("Would create release issue: " ++ title)
      ((if cfg.updateLinkedIssues then
          ["Would update linked issues to state: " ++ cfg.releasedState]
        else []) ++
        (if cfg.addReleaseComment then
          ["Would add comment to linked issues: " ++
            renderValue (render cfg.commentTemplate)]
        else []))
    refine ⟨"Would create release issue: ", t2, ?_⟩
    rw [ht2, String.append_assoc]
  · intro c hc
    simp only [List.mem_append] at hc
    rcases hc with hc | hc
    · rw [mem_ite_singleton hc]
      rfl
    · rw [mem_ite_singleton hc]
      rfl

/-- C9: when the comment template renders to the empty string, the run
behaves exactly as a run with commenting disabled, except for the single
render event: no comment is attempted, the commented counter is zero, and
the warnings coincide (nothing is recorded about commenting). -/
theorem c9_empty_comment_skipped (gw : Gateway)
    (render : String → Except String String) (cfg : Config) (team : Team)
    (ids : List String)
    (hadd : cfg.addReleaseComment = true)
    (hrender : render cfg.commentTemplate = .ok "") :
    (processLinkedIssues gw render cfg team ids).commented = 0 ∧
    (∀ i b2, Call.addCommentCall i b2 ∉
      (processLinkedIssues gw render cfg team ids).calls) ∧
    (processLinkedIssues gw render cfg team ids).errs =
      (processLinkedIssues gw render
        { cfg with addReleaseComment := false } team ids).errs ∧
    (processLinkedIssues gw render cfg team ids).updated =
      (processLinkedIssues gw render
        { cfg with addReleaseComment := false } team ids).updated ∧
    (processLinkedIssues gw render cfg team ids).calls =
      Call.renderCall cfg.commentTemplate ::
        (processLinkedIssues gw render
          { cfg with addReleaseComment := false } team ids).calls := by
  have hcs : commentStep render cfg = ("", true, []) := by
    unfold commentStep
    rw [if_pos hadd, hrender]
  have hcs2 : commentStep render { cfg with addReleaseComment := false } =
      ("", false, []) := by
    unfold commentStep
    rw [if_neg (by simp)]
  have hrid : resolvedStateID { cfg with addReleaseComment := false } team =
      resolvedStateID cfg team := rfl
  have hlr : processList gw cfg.updateLinkedIssues (resolvedStateID cfg team)
      true "" ids =
      processList gw cfg.updateLinkedIssues (resolvedStateID cfg team)
        false "" ids :=
    processList_comment_enable_irrelevant gw cfg.updateLinkedIssues
      (resolvedStateID cfg team) true false ids
  unfold processLinkedIssues
  rw [hcs, hcs2, hrid]
  simp only [hlr, if_pos hadd, if_neg (show ¬({ cfg with
    addReleaseComment := false } : Config).addReleaseComment = true by simp)]
  refine ⟨?_, ?_, ?_, ?_, ?_⟩
  · rw [processList_commented]
    rw [List.length_eq_zero]
    rw [List.filter_eq_nil_iff]
    intro i hi
    unfold comOK
    cases hg : gw.getIssueByIdentifier i
    · simp
    · simp
  · intro i b2 hmem
    simp only [List.mem_append, List.mem_singleton] at hmem
    rcases hmem with hmem | hmem
    · exact Call.noConfusion hmem
    · exact processList_no_comment_of_empty gw cfg.updateLinkedIssues
        (resolvedStateID cfg team) false ids i b2 hmem
  · simp
  · trivial
  · simp

/-- C10: in dry-run mode template render errors are discarded: with both
preview lines enabled the invocation succeeds with an empty error field,
the message is exactly the two preview lines whose rendered portion is the
renderValue of the template (which is the empty string on any render
error), and no validation failure is reported. -/
theorem c10_dry_run_render_errors (gw : Gateway)
    (render : String → Except String String) (cfg : Config)
    (commits : List String)
    (hcr : cfg.createReleaseIssue = true)
    (hac : cfg.addReleaseComment = true)
    (hul : cfg.updateLinkedIssues = false) :
    (handlePostPublish gw render cfg commits true).resp.success = true ∧
    (handlePostPublish gw render cfg commits true).resp.error = "" ∧
    (handlePostPublish gw render cfg commits true).resp.message =
      ("Would create release issue: " ++
        renderValue (render cfg.releaseIssue.title)) ++ "; " ++
      ("Would add comment to linked issues: " ++
        renderValue (render cfg.commentTemplate)) ∧
    (∀ e, renderValue (Except.error e) = "") := by
  unfold handlePostPublish
  rw [if_pos rfl]
  refine ⟨?_, ?_, ?_, fun e => rfl⟩ <;>
    simp [hcr, hac, hul, joinSep]

theorem processLinkedIssues_eq (gw : Gateway)
    (render : String → Except String String) (cfg : Config) (team : Team)
    (ids : List String) :
    processLinkedIssues gw render cfg team ids =
      ⟨(processList gw cfg.updateLinkedIssues (resolvedStateID cfg team)
          (commentStep render cfg).2.1 (commentStep render cfg).1
          ids).updated,
        (processList gw cfg.updateLinkedIssues (resolvedStateID cfg team)
          (commentStep render cfg).2.1 (commentStep render cfg).1
          ids).commented,
        (if cfg.updateLinkedIssues ∧ cfg.releasedState ≠ "" ∧
            resolvedStateID cfg team = "" then
          [stateWarning cfg.releasedState]
        else []) ++ (commentStep render cfg).2.2 ++
          (processList gw cfg.updateLinkedIssues (resolvedStateID cfg team)
            (commentStep render cfg).2.1 (commentStep render cfg).1
            ids).errs,
        (if cfg.addReleaseComment then [Call.renderCall cfg.commentTemplate]
          else []) ++
          (processList gw cfg.updateLinkedIssues (resolvedStateID cfg team)
            (commentStep render cfg).2.1 (commentStep render cfg).1
            ids).calls⟩ :=
  rfl

theorem updOK_empty_rid (gw : Gateway) (upd : Bool) (i : String) :
    updOK gw upd "" i = false := by
  unfold updOK
  cases hg : gw.getIssueByIdentifier i
  · rfl
  · simp

theorem stateWarning_assoc (n : String) :
    stateWarning n =
      "State \x27" ++ (n ++ "\x27 not found in team workflow") := by
  unfold stateWarning
  rw [String.append_assoc]

theorem stateWarning_ne_issue (n t : String) :
    stateWarning n ≠ "Issue " ++ t := by
  rw [stateWarning_assoc]
  exact ne_of_head (show ("State \x27").data.head? = some 'S' by decide)
    (show ("Issue ").data.head? = some 'I' by decide) (by decide) _ _

theorem stateWarning_ne_failed (n t : String) :
    stateWarning n ≠ "Failed " ++ t := by
  rw [stateWarning_assoc]
  exact ne_of_head (show ("State \x27").data.head? = some 'S' by decide)
    (show ("Failed ").data.head? = some 'F' by decide) (by decide) _ _

theorem commentStep_errs_kinds (render : String → Except String String)
    (cfg : Config) :
    ∀ e ∈ (commentStep render cfg).2.2, ∃ t, e = "Failed " ++ t := by
  intro e he
  unfold commentStep at he
  split at he
  · cases hr : render cfg.commentTemplate with
    | ok s2 =>
      rw [hr] at he
      simp at he
    | error e2 =>
      rw [hr] at he
      simp only [List.mem_singleton] at he
      refine ⟨"to render comment template: " ++ e2, ?_⟩
      have hlit : ("Failed to render comment template: " : String) =
          "Failed " ++ "to render comment template: " := by decide
      rw [he, hlit]
      simp only [String.append_assoc]
  · simp at he

/-- C4: with state updates enabled and a configured released-state name
matching no team state case-insensitively, the run proceeds: exactly one
warning naming the missing state is recorded, the updated counter is zero
and no state-update call occurs, comments are still attempted for every
fetched issue when commenting is enabled, the comment-template render
happens exactly once per run (count independent of the identifiers), and
every comment carries that one rendered body. -/
theorem c4_missing_state_warning (gw : Gateway)
    (render : String → Except String String) (cfg : Config) (team : Team)
    (ids : List String)
    (hupd : cfg.updateLinkedIssues = true)
    (hrs : cfg.releasedState ≠ "")
    (hmiss : ∀ st ∈ team.states, eqFoldS st.name cfg.releasedState = false) :
    List.count (stateWarning cfg.releasedState)
        (processLinkedIssues gw render cfg team ids).errs = 1 ∧
    (processLinkedIssues gw render cfg team ids).updated = 0 ∧
    (∀ i st, Call.updateStateCall i st ∉
      (processLinkedIssues gw render cfg team ids).calls) ∧
    (cfg.addReleaseComment = true → ∀ cm,
      render cfg.commentTemplate = .ok cm → cm ≠ "" →
      ∀ i ∈ ids, ∀ issue, gw.getIssueByIdentifier i = .ok issue →
        Call.addCommentCall issue.id cm ∈
          (processLinkedIssues gw render cfg team ids).calls) ∧
    (List.countP isRenderCall
        (processLinkedIssues gw render cfg team ids).calls =
      if cfg.addReleaseComment then 1 else 0) ∧
    (∀ i b2, Call.addCommentCall i b2 ∈
        (processLinkedIssues gw render cfg team ids).calls →
      b2 = renderValue (render cfg.commentTemplate)) := by
  have hfind : team.states.find?
      (fun st => eqFoldS st.name cfg.releasedState) = none := by
    rw [List.find?_eq_none]
    intro st hst
    simp [hmiss st hst]
  have hrid : resolvedStateID cfg team = "" := by
    unfold resolvedStateID
    rw [if_pos ⟨hupd, hrs⟩, hfind]
    rfl
  rw [processLinkedIssues_eq, hrid]
  rw [if_pos ⟨hupd, hrs, rfl⟩]
  refine ⟨?_, ?_, ?_, ?_, ?_, ?_⟩
  · simp only [List.count_append]
    have h1 : List.count (stateWarning cfg.releasedState)
        [stateWarning cfg.releasedState] = 1 := by
      simp
    have h2 : List.count (stateWarning cfg.releasedState)
        (commentStep render cfg).2.2 = 0 := by
      rw [List.count_eq_zero]
      intro hmem
      obtain ⟨t, ht⟩ := commentStep_errs_kinds render cfg _ hmem
      exact stateWarning_ne_failed cfg.releasedState t ht
    have h3 : List.count (stateWarning cfg.releasedState)
        (processList gw cfg.updateLinkedIssues ""
          (commentStep render cfg).2.1 (commentStep render cfg).1
          ids).errs = 0 := by
      rw [List.count_eq_zero]
      intro hmem
      rcases processList_errs_kinds gw cfg.updateLinkedIssues ""
          (commentStep render cfg).2.1 (commentStep render cfg).1 ids _
          hmem with ⟨t, ht⟩ | ⟨t, ht⟩
      · exact stateWarning_ne_issue cfg.releasedState t ht
      · exact stateWarning_ne_failed cfg.releasedState t ht
    rw [h1, h2, h3]
  · rw [processList_updated]
    rw [List.length_eq_zero, List.filter_eq_nil_iff]
    intro i hi
    simp [updOK_empty_rid]
  · intro i st hmem
    simp only [List.mem_append] at hmem
    rcases hmem with hmem | hmem
    · exact Call.noConfusion (mem_ite_singleton hmem)
    · exact processList_no_update_of_rid_empty gw cfg.updateLinkedIssues
        (commentStep render cfg).2.1 (commentStep render cfg).1 ids i st
        hmem
  · intro hadd cm hr hcm i hi issue hg
    have hcs : commentStep render cfg = (cm, true, []) := by
      unfold commentStep
      rw [if_pos hadd, hr]
    rw [hcs]
    simp only [List.mem_append]
    exact Or.inr (processList_comment_attempted gw
      cfg.updateLinkedIssues "" rfl hcm ids i hi issue hg)
  · rw [List.countP_append]
    have h1 : List.countP isRenderCall
        (processList gw cfg.updateLinkedIssues ""
          (commentStep render cfg).2.1 (commentStep render cfg).1
          ids).calls = 0 := by
      rw [List.countP_eq_zero]
      intro c hc
      rcases processList_calls_kinds gw cfg.updateLinkedIssues ""
          (commentStep render cfg).2.1 (commentStep render cfg).1 ids c
          hc with ⟨j, rfl⟩ | ⟨j, rfl⟩ | ⟨j, rfl⟩ <;> simp [isRenderCall]
    rw [h1]
    by_cases hadd : cfg.addReleaseComment = true
    · rw [if_pos hadd, if_pos hadd]
      rfl
    · rw [if_neg hadd, if_neg hadd]
      rfl
  · intro i b2 hmem
    simp only [List.mem_append] at hmem
    rcases hmem with hmem | hmem
    · exact Call.noConfusion (mem_ite_singleton hmem)
    · by_cases hadd : cfg.addReleaseComment = true
      · cases hr : render cfg.commentTemplate with
        | ok s2 =>
          have hcs : commentStep render cfg = (s2, true, []) := by
            unfold commentStep
            rw [if_pos hadd, hr]
          rw [hcs] at hmem
          rcases processList_calls_kinds gw cfg.updateLinkedIssues ""
              true s2 ids _ hmem with ⟨j, hj⟩ | ⟨j, hj⟩ | ⟨j, hj⟩
          · exact Call.noConfusion hj
          · exact Call.noConfusion hj
          · have hb2 : b2 = s2 := by
              injection hj with h1 h2
            rw [hb2]
            rfl
        | error e2 =>
          have hcs : commentStep render cfg =
              ("", false, ["Failed to render comment template: " ++ e2]) := by
            unfold commentStep
            rw [if_pos hadd, hr]
          rw [hcs] at hmem
          exact absurd hmem (processList_no_comment_of_empty gw
            cfg.updateLinkedIssues "" false ids i b2)
      · have hcs : commentStep render cfg = ("", false, []) := by
          unfold commentStep
          rw [if_neg hadd]
        rw [hcs] at hmem
        exact absurd hmem (processList_no_comment_of_empty gw
          cfg.updateLinkedIssues "" false ids i b2)

/-- A value of the host-supplied configuration map. -/
inductive CVal where
  | str (s2 : String)
  | bool (b : Bool)
  | int (n : Int)
  | nested (kvs : List (String × CVal))
  | list (vs : List CVal)

/-- Modelled from the spec: the SDK helpers.ConfigParser GetString, which
is not part of this repository. Spec section 6: configuration is consumed
from a host-supplied key/value map, with environment-variable fallback for
the credential and team-id fields; otherwise the default applies. -/
def getString (raw : List (String × CVal)) (env : String → Option String)
    (key envKey dflt : String) : String :=
  match raw.lookup key with
  | some (.str s2) => s2
  | _ =>
    match (if envKey ≠ "" then env envKey else none) with
    | some v => v
    | none => dflt

/-- Modelled from the spec: the SDK helpers.ConfigParser GetBool — the
value of the key when present as a boolean, else the default. -/
def getBool (raw : List (String × CVal)) (key : String) (dflt : Bool) :
    Bool :=
  match raw.lookup key with
  | some (.bool b) => b
  | _ => dflt

/-- Modelled from the spec: the SDK helpers.ConfigParser GetInt — the
value of the key when present as an integer, else the default. -/
def getInt (raw : List (String × CVal)) (key : String) (dflt : Int) :
    Int :=
  match raw.lookup key with
  | some (.int n) => n
  | _ => dflt

/-- The source constant defaultReleaseDescription (braces escaped). -/
def defaultReleaseDescription : String :=
  "## Release \x7b\x7b.Version\x7d\x7d\n\n**Released:** \x7b\x7b.Date\x7d\x7d\n**Tag:** \x7b\x7b.TagName\x7d\x7d\n**Type:** \x7b\x7b.ReleaseType\x7d\x7d\n\n### Changes\n\x7b\x7b.ReleaseNotes\x7d\x7d"

/-- parseConfig before the issue-prefix fixup (the body of the source
function up to the final if). -/
def parseConfigBase (env : String → Option String)
    (raw : List (String × CVal)) : Config :=
  { apiKey := getString raw env "api_key" "LINEAR_API_KEY" "",
    teamID := getString raw env "team_id" "LINEAR_TEAM_ID" "",
    teamKey := getString raw env "team_key" "" "",
    projectID := getString raw env "project_id" "" "",
    issuePfx := getString raw env "issue_prefix" "" "",
    releasedState := getString raw env "released_state" "" "Done",
    createReleaseIssue := getBool raw "create_release_issue" true,
    updateLinkedIssues := getBool raw "update_linked_issues" true,
    addReleaseComment := getBool raw "add_release_comment" true,
    commentTemplate := getString raw env "comment_template" ""
      "Released in \x7b\x7b.Version\x7d\x7d",
    releaseIssue :=
      match raw.lookup "release_issue" with
      | some (.nested ri) =>
        { title := getString ri env "title" ""
            "Release \x7b\x7b.Version\x7d\x7d",
          description := getString ri env "description" ""
            defaultReleaseDescription,
          labels :=
            match ri.lookup "labels" with
            | some (.list vs) => vs.filterMap (fun v =>
                match v with
                | .str s2 => some s2
                | _ => none)
            | _ => [],
          priority := getInt ri "priority" 4,
          assignee := getString ri env "assignee" "" "" }
      | _ =>
        { title := "Release \x7b\x7b.Version\x7d\x7d",
          description := defaultReleaseDescription,
          labels := ["release"],
          priority := 4,
          assignee := "" } }

/-- parseConfig: parse with defaults, then use the team key as issue
prefix when none is specified. -/
def parseConfig (env : String → Option String)
    (raw : List (String × CVal)) : Config :=
  let cfg := parseConfigBase env raw
  if cfg.issuePfx = "" ∧ cfg.teamKey ≠ "" then
    { cfg with issuePfx := cfg.teamKey }
  else cfg

theorem getString_default (raw : List (String × CVal))
    (env : String → Option String) {key : String} (dflt : String)
    (h : raw.lookup key = none) : getString raw env key "" dflt = dflt := by
  unfold getString
  rw [h]
  simp

theorem getBool_default (raw : List (String × CVal)) {key : String}
    (dflt : Bool) (h : raw.lookup key = none) :
    getBool raw key dflt = dflt := by
  unfold getBool
  rw [h]

theorem parseConfig_same_but_pfx (env : String → Option String)
    (raw : List (String × CVal)) :
    (parseConfig env raw).releasedState =
        (parseConfigBase env raw).releasedState ∧
      (parseConfig env raw).createReleaseIssue =
        (parseConfigBase env raw).createReleaseIssue ∧
      (parseConfig env raw).updateLinkedIssues =
        (parseConfigBase env raw).updateLinkedIssues ∧
      (parseConfig env raw).addReleaseComment =
        (parseConfigBase env raw).addReleaseComment ∧
      (parseConfig env raw).commentTemplate =
        (parseConfigBase env raw).commentTemplate ∧
      (parseConfig env raw).teamKey = (parseConfigBase env raw).teamKey := by
  by_cases hc : (parseConfigBase env raw).issuePfx = "" ∧
      (parseConfigBase env raw).teamKey ≠ ""
  · unfold parseConfig
    simp only [if_pos hc]
    simp
  · unfold parseConfig
    simp only [if_neg hc]
    simp

/-- C8 counterexample: with every key absent, the parsed comment template
is "Released in {{.Version}}" — with the leading dot of the Go template
syntax — and not the string "Released in {{Version}}" stated by the
claim. -/
theorem c8_defaults_counterexample :
    (parseConfig (fun _ => none) []).commentTemplate =
        "Released in \x7b\x7b.Version\x7d\x7d" ∧
      (parseConfig (fun _ => none) []).commentTemplate ≠
        "Released in \x7b\x7bVersion\x7d\x7d" := by
  constructor
  · rfl
  · decide

/-- C8 (amended): for every raw configuration map with the relevant keys
absent, parseConfig applies the defaults: released-state "Done", the
three toggles true, comment template "Released in {{.Version}}" (the
placeholder carries the leading dot of the Go template syntax), and —
when the issue-prefix key is also absent — an issue-prefix filter equal
to the parsed team key. -/
theorem c8_defaults_amended (env : String → Option String)
    (raw : List (String × CVal))
    (h1 : raw.lookup "released_state" = none)
    (h2 : raw.lookup "create_release_issue" = none)
    (h3 : raw.lookup "update_linked_issues" = none)
    (h4 : raw.lookup "add_release_comment" = none)
    (h5 : raw.lookup "comment_template" = none)
    (h6 : raw.lookup "issue_prefix" = none) :
    (parseConfig env raw).releasedState = "Done" ∧
    (parseConfig env raw).createReleaseIssue = true ∧
    (parseConfig env raw).updateLinkedIssues = true ∧
    (parseConfig env raw).addReleaseComment = true ∧
    (parseConfig env raw).commentTemplate =
      "Released in \x7b\x7b.Version\x7d\x7d" ∧
    (parseConfig env raw).issuePfx = (parseConfig env raw).teamKey := by
  obtain ⟨p1, p2, p3, p4, p5, p6⟩ := parseConfig_same_but_pfx env raw
  have hpfx : (parseConfigBase env raw).issuePfx = "" := by
    show getString raw env "issue_prefix" "" "" = ""
    exact getString_default raw env "" h6
  refine ⟨?_, ?_, ?_, ?_, ?_, ?_⟩
  · rw [p1]
    exact getString_default raw env "Done" h1
  · rw [p2]
    exact getBool_default raw true h2
  · rw [p3]
    exact getBool_default raw true h3
  · rw [p4]
    exact getBool_default raw true h4
  · rw [p5]
    exact getString_default raw env "Released in \x7b\x7b.Version\x7d\x7d" h5
  · rw [p6]
    unfold parseConfig
    by_cases hc : (parseConfigBase env raw).issuePfx = "" ∧
        (parseConfigBase env raw).teamKey ≠ ""
    · simp only [if_pos hc]
    · simp only [if_neg hc]
      have htk : (parseConfigBase env raw).teamKey = "" := by
        by_contra htk
        exact hc ⟨hpfx, htk⟩
      rw [hpfx, htk]

/-- Concrete fixtures used by the witnesses. -/
def teamW : Team :=
  ⟨"t1", "ENG", "Eng",
    [⟨"s1", "Backlog", "backlog"⟩, ⟨"s3", "Done", "completed"⟩]⟩

def issueW : Issue := ⟨"i1", "ENG-1", "X", ⟨"s1", "Backlog", "backlog"⟩, "u1"⟩

def gwW : Gateway :=
  { getTeam := fun _ _ => .ok teamW,
    getIssueByIdentifier := fun idf =>
      if idf = "ENG-1" then .ok issueW else .error "nf",
    createIssue := fun _ => .error "boom",
    updateIssueState := fun _ _ => .ok (),
    addComment := fun _ _ => .ok () }

def renderW : String → Except String String := fun t =>
  if t = "bad" then .error "parse" else .ok ("R" ++ t)

def cfgW : Config :=
  ⟨"k", "t1", "ENG", "", "ENG", "Done", true, true, true, "ct",
    ⟨"ti", "de", ["release"], 4, ""⟩⟩

theorem c2_witness :
    gwW.getIssueByIdentifier "BAD-9" = .error "nf" ∧
    processIssue gwW true "s3" true "hi" "BAD-9" =
      ⟨0, 0, ["Issue BAD-9 not found: nf"], [Call.getIssueCall "BAD-9"]⟩ ∧
    gwW.getIssueByIdentifier "ENG-1" = .ok issueW ∧
    Call.addCommentCall issueW.id "hi" ∈
      (processIssue gwW true "s3" true "hi" "ENG-1").calls := by
  have h := c2_process_linked_issues_independent gwW true "s3" true "hi"
  exact ⟨rfl, h.2.2.1 "BAD-9" "nf" rfl, rfl,
    h.2.2.2 "ENG-1" issueW rfl rfl (by decide)⟩

theorem c3_witness :
    cfgW.createReleaseIssue = true ∧
    (handlePostPublish gwW renderW cfgW ["x ENG-1"] false).resp.success =
      false ∧
    (handlePostPublish gwW renderW cfgW ["x ENG-1"] false).resp.error ≠
      "" := by
  have hfail : ∀ team, gwW.getTeam cfgW.teamID cfgW.teamKey = .ok team →
      isOkB (createReleaseIssue gwW renderW cfgW team).1 = false := by
    intro team heq
    have h2 : teamW = team := by
      injection heq
    rw [← h2]
    decide
  have h := c3_create_failure_fatal gwW renderW cfgW ["x ENG-1"] rfl hfail
  exact ⟨rfl, h.1, h.2.1⟩

def cfgW4 : Config :=
  { cfgW with releasedState := "Gone", createReleaseIssue := false }

theorem c4_witness :
    cfgW4.updateLinkedIssues = true ∧
    List.count (stateWarning "Gone")
      (processLinkedIssues gwW renderW cfgW4 teamW ["ENG-1"]).errs = 1 ∧
    (processLinkedIssues gwW renderW cfgW4 teamW ["ENG-1"]).updated = 0 := by
  have h := c4_missing_state_warning gwW renderW cfgW4 teamW ["ENG-1"] rfl
    (by decide) (by decide)
  exact ⟨rfl, h.1, h.2.1⟩

theorem c7_witness :
    cfgW.createReleaseIssue = true ∧
    (handlePostPublish gwW renderW cfgW ["c"] true).resp.success = true ∧
    ∃ s2 t2, (handlePostPublish gwW renderW cfgW ["c"] true).resp.message =
      s2 ++ ("Rti" ++ t2) := by
  have h := c7_dry_run_no_gateway gwW renderW cfgW ["c"] rfl
  exact ⟨rfl, h.1, h.2.1 "Rti" rfl⟩

def renderW9 : String → Except String String := fun _ => .ok ""

theorem c9_witness :
    cfgW.addReleaseComment = true ∧
    renderW9 cfgW.commentTemplate = .ok "" ∧
    (processLinkedIssues gwW renderW9 cfgW teamW ["ENG-1"]).commented =
      0 := by
  have h := c9_empty_comment_skipped gwW renderW9 cfgW teamW ["ENG-1"] rfl
    rfl
  exact ⟨rfl, rfl, h.1⟩

def cfgW10 : Config :=
  { cfgW with
      updateLinkedIssues := false
      commentTemplate := "bad"
      releaseIssue := ⟨"bad", "de", ["release"], 4, ""⟩ }

theorem c10_witness :
    (handlePostPublish gwW renderW cfgW10 ["c"] true).resp.success = true ∧
    (handlePostPublish gwW renderW cfgW10 ["c"] true).resp.message =
      "Would create release issue: ; Would add comment to linked issues: " := by
  have h := c10_dry_run_render_errors gwW renderW cfgW10 ["c"] rfl rfl rfl
  refine ⟨h.1, ?_⟩
  rw [h.2.2.1]
  decide

theorem c8_witness :
    ([("team_key", CVal.str "DEV")].lookup "released_state" = none) ∧
    (parseConfig (fun _ => none)
      [("team_key", CVal.str "DEV")]).releasedState = "Done" ∧
    (parseConfig (fun _ => none)
      [("team_key", CVal.str "DEV")]).issuePfx = "DEV" := by
  have h := c8_defaults_amended (fun _ => none)
    [("team_key", CVal.str "DEV")] rfl rfl rfl rfl rfl rfl
  refine ⟨rfl, h.1, ?_⟩
  rw [h.2.2.2.2.2]
  rfl

end Linear
